import Mathlib

/-!
Verification of the AVL binary search tree implemented in
`src/Module_3/AVL_BST/main.cpp` (`class AVLBinaryTree`).

The C++ code is shallowly embedded: `Node<T>*` pointers become the inductive
type `Tree α` (`nil` is the null pointer), destructive pointer updates become
functional reconstruction of the affected nodes, and each private recursive
member function becomes a Lean function of the same name.  The key type `T`
is kept generic over a linear order, exactly as the template parameter with
`<` / `==` / `>` comparisons is.  `size_t` levels are modelled as `Nat`; the
one place where unsigned wraparound genuinely occurs (`bfactor`'s subtraction
`node_level(right) - node_level(left)` followed by `static_cast<int>`) is
modelled bit-precisely by `bfactor_impl` below and related to the
mathematical difference `bfactor`.
-/

set_option maxHeartbeats 1000000
set_option maxRecDepth 4000
set_option linter.unusedSectionVars false
set_option exponentiation.threshold 4000

namespace AVLBinaryTree

/-- `Node<T>`: key, stored level (`size_t level{1}`), left and right child
pointers; `nil` is the null pointer. -/
inductive Tree (α : Type) where
  | nil : Tree α
  | node (key : α) (level : Nat) (left : Tree α) (right : Tree α) : Tree α
  deriving DecidableEq, Repr

variable {α : Type} [LinearOrder α]

/-- `node_level`: returns 0 for a null pointer, else the stored `level`
field (never recomputes). -/
def node_level : Tree α → Nat
  | .nil => 0
  | .node _ lv _ _ => lv

/-- True (recomputed) height of a subtree; an absent subtree has height 0.
This is the mathematical notion the invariants refer to; the code itself
only stores `level` fields. -/
def height : Tree α → Nat
  | .nil => 0
  | .node _ _ l r => max (height l) (height r) + 1

/-- In-order key sequence of the tree. -/
def keys : Tree α → List α
  | .nil => []
  | .node k _ l r => keys l ++ k :: keys r

/-- `fix_height`: recomputes the node's `level` from the children's stored
levels: `(left_level > right_level ? left_level : right_level) + 1`. -/
def fix_height : Tree α → Tree α
  | .nil => .nil
  | .node k _ l r => .node k (max (node_level l) (node_level r) + 1) l r

/-- `bfactor` as a mathematical integer: `node_level(right) - node_level(left)`.
The C++ source computes this with `size_t` subtraction and a cast to `int`,
modelled bit-precisely by `bfactor_impl`; the development proves the two agree
at every evaluation the program performs. -/
def bfactor : Tree α → Int
  | .nil => 0
  | .node _ _ l r => (node_level r : Int) - (node_level l : Int)

/-- Truncation of a `size_t` (64-bit) value to a two's-complement `int`
(32-bit), as `static_cast<int>` does. -/
def toInt32 (u : Nat) : Int :=
  if u % 2 ^ 32 < 2 ^ 31 then ((u % 2 ^ 32 : Nat) : Int)
  else ((u % 2 ^ 32 : Nat) : Int) - 2 ^ 32

/-- 64-bit unsigned subtraction `a - b` (wraps modulo `2^64`). -/
def usub64 (a b : Nat) : Nat := (a % 2 ^ 64 + (2 ^ 64 - b % 2 ^ 64)) % 2 ^ 64

/-- `bfactor` exactly as the source computes it:
`static_cast<int>(node_level(node->right) - node_level(node->left))` with
`size_t` operands. -/
def bfactor_impl : Tree α → Int
  | .nil => 0
  | .node _ _ l r => toInt32 (usub64 (node_level r) (node_level l))

/-- `rotate_right(node)`: `left` becomes the subtree root, `node` takes over
`left->right`, heights of `node` then `left` are fixed.  The C++ function
dereferences `node` and `node->left`; on inputs where that would be a null
dereference (never reached by the program) the model returns the argument. -/
def rotate_right : Tree α → Tree α
  | .node k lv (.node lk llv ll lr) r =>
      fix_height (.node lk llv ll (fix_height (.node k lv lr r)))
  | t => t

/-- `rotate_left(node)`: symmetric to `rotate_right`, pivoting on `node->right`. -/
def rotate_left : Tree α → Tree α
  | .node k lv l (.node rk rlv rl rr) =>
      fix_height (.node rk rlv (fix_height (.node k lv l rl)) rr)
  | t => t

/-- `balance(node)`: `fix_height(node)`; if `bfactor == 2`, first rotate
`node->right` right when `bfactor(node->right) < 0`, then rotate `node` left;
symmetric for `bfactor == -2`; otherwise return the node unchanged. -/
def balance (t : Tree α) : Tree α :=
  match fix_height t with
  | .nil => .nil
  | .node k lv l r =>
    if bfactor (.node k lv l r) = 2 then
      if bfactor r < 0 then rotate_left (.node k lv l (rotate_right r))
      else rotate_left (.node k lv l r)
    else if bfactor (.node k lv l r) = -2 then
      if bfactor l > 0 then rotate_right (.node k lv (rotate_left l) r)
      else rotate_right (.node k lv l r)
    else .node k lv l r

/-- Private `insert(Node*, const T&)`: returns the new subtree root together
with the emitted signal (`true` for the `OK` print at leaf creation, `false`
for the `FAIL` print on a duplicate key).  Every non-null node on the path is
passed through `balance` before being returned, as in the source. -/
def insert : Tree α → α → Tree α × Bool
  | .nil, v => (.node v 1 .nil .nil, true)
  | .node k lv l r, v =>
    if v = k then (balance (.node k lv l r), false)
    else if v < k then
      let p := insert l v
      (balance (.node k lv p.1 r), p.2)
    else
      let p := insert r v
      (balance (.node k lv l p.1), p.2)

/-- `find_min(node)`: leftmost node of a (non-null) subtree; returns the node
itself (with its stored fields). -/
def find_min : Tree α → Tree α
  | .node k lv .nil r => .node k lv .nil r
  | .node _ _ (.node lk llv ll lr) _ => find_min (.node lk llv ll lr)
  | .nil => .nil

/-- `remove_min(node)`: a node with no left child passes its right child
upward; otherwise recurse left and rebalance. -/
def remove_min : Tree α → Tree α
  | .node _ _ .nil r => r
  | .node k lv (.node lk llv ll lr) r =>
      balance (.node k lv (remove_min (.node lk llv ll lr)) r)
  | .nil => .nil

/-- Private `remove(Node*, const T&)`: returns the new subtree root and the
emitted signal (`true` for `OK` when the key was found and deleted, `false`
for the `FAIL` print at a null subtree).  At the node holding the key: with no
right child the left child replaces it directly; otherwise the in-order
successor `min = find_min(right)` takes over `left` and `remove_min(right)`
and is passed through `balance`. -/
def remove : Tree α → α → Tree α × Bool
  | .nil, _ => (.nil, false)
  | .node k lv l r, v =>
    if v < k then
      let p := remove l v
      (balance (.node k lv p.1 r), p.2)
    else if v > k then
      let p := remove r v
      (balance (.node k lv l p.1), p.2)
    else
      match r with
      | .nil => (l, true)
      | .node rk rlv rl rr =>
        match find_min (.node rk rlv rl rr) with
        | .node mk mlv _ _ =>
            (balance (.node mk mlv l (remove_min (.node rk rlv rl rr))), true)
        | .nil => (.nil, true)

/-- `search(Node*, const T&)`: iterative descent; returns the matching node or
null. -/
def search : Tree α → α → Option (Tree α)
  | .nil, _ => none
  | .node k lv l r, v =>
    if k = v then some (.node k lv l r)
    else if k < v then search r v
    else search l v

/-- The three public operations of the tree (the command loop's `+`, `-`, `?`). -/
inductive Op (α : Type) where
  | ins (v : α) : Op α
  | del (v : α) : Op α
  | qry (v : α) : Op α
  deriving DecidableEq, Repr

/-- Effect of one public operation on the root (`_root = insert(_root, v)`,
`_root = remove(_root, v)`; `search` does not mutate). -/
def applyOp (t : Tree α) : Op α → Tree α
  | .ins v => (insert t v).1
  | .del v => (remove t v).1
  | .qry _ => t

/-- Tree obtained by running a sequence of public operations from the empty
tree (a fresh `AVLBinaryTree` has `_root = nullptr`). -/
def runOps (ops : List (Op α)) : Tree α := ops.foldl applyOp .nil

/-- A tree is reachable if some finite sequence of public operations starting
from the empty tree produces it. -/
def reachable (t : Tree α) : Prop := ∃ ops : List (Op α), runOps ops = t

/-- Binary-search-tree order: at every node, all keys of the left subtree are
strictly smaller and all keys of the right subtree strictly greater. -/
def bst : Tree α → Prop
  | .nil => True
  | .node k _ l r => (∀ x ∈ keys l, x < k) ∧ (∀ x ∈ keys r, k < x) ∧ bst l ∧ bst r

/-- AVL balance: at every node the true heights of the two subtrees differ by
at most 1 (absent subtree has height 0). -/
def avlBalanced : Tree α → Prop
  | .nil => True
  | .node _ _ l r =>
      height l ≤ height r + 1 ∧ height r ≤ height l + 1 ∧ avlBalanced l ∧ avlBalanced r

/-- Height consistency: every stored `level` equals `1 + max` of the
children's true heights. -/
def heightConsistent : Tree α → Prop
  | .nil => True
  | .node _ lv l r =>
      lv = max (height l) (height r) + 1 ∧ heightConsistent l ∧ heightConsistent r

/-- Combined structural invariant used internally: height consistency plus AVL
balance at every node. -/
def avl : Tree α → Prop
  | .nil => True
  | .node _ lv l r =>
      lv = max (height l) (height r) + 1 ∧ height l ≤ height r + 1 ∧
        height r ≤ height l + 1 ∧ avl l ∧ avl r

instance decBst : ∀ t : Tree α, Decidable (bst t)
  | .nil => .isTrue trivial
  | .node k _ l r =>
    have : Decidable (bst l) := decBst l
    have : Decidable (bst r) := decBst r
    decidable_of_iff ((∀ x ∈ keys l, x < k) ∧ (∀ x ∈ keys r, k < x) ∧ bst l ∧ bst r)
      Iff.rfl

instance decAvlBalanced : ∀ t : Tree α, Decidable (avlBalanced t)
  | .nil => .isTrue trivial
  | .node _ _ l r =>
    have : Decidable (avlBalanced l) := decAvlBalanced l
    have : Decidable (avlBalanced r) := decAvlBalanced r
    decidable_of_iff
      (height l ≤ height r + 1 ∧ height r ≤ height l + 1 ∧ avlBalanced l ∧ avlBalanced r)
      Iff.rfl

instance decHeightConsistent : ∀ t : Tree α, Decidable (heightConsistent t)
  | .nil => .isTrue trivial
  | .node _ lv l r =>
    have : Decidable (heightConsistent l) := decHeightConsistent l
    have : Decidable (heightConsistent r) := decHeightConsistent r
    decidable_of_iff
      (lv = max (height l) (height r) + 1 ∧ heightConsistent l ∧ heightConsistent r)
      Iff.rfl

instance decAvl : ∀ t : Tree α, Decidable (avl t)
  | .nil => .isTrue trivial
  | .node _ lv l r =>
    have : Decidable (avl l) := decAvl l
    have : Decidable (avl r) := decAvl r
    decidable_of_iff
      (lv = max (height l) (height r) + 1 ∧ height l ≤ height r + 1 ∧
        height r ≤ height l + 1 ∧ avl l ∧ avl r)
      Iff.rfl

theorem node_level_nil : node_level (.nil : Tree α) = 0 := rfl

theorem node_level_node {k : α} {lv : Nat} {l r : Tree α} :
    node_level (.node k lv l r) = lv := rfl

theorem height_nil : height (.nil : Tree α) = 0 := rfl

theorem height_node {k : α} {lv : Nat} {l r : Tree α} :
    height (.node k lv l r) = max (height l) (height r) + 1 := rfl

theorem heightConsistent_level {t : Tree α} (h : heightConsistent t) :
    node_level t = height t := by
  cases t with
  | nil => rfl
  | node k lv l r =>
    rw [heightConsistent] at h
    simp [node_level, height, h.1]

theorem avl_level {t : Tree α} (h : avl t) : node_level t = height t := by
  cases t with
  | nil => rfl
  | node k lv l r =>
    rw [avl] at h
    simp [node_level, height, h.1]

theorem avl_iff : ∀ t : Tree α, avl t ↔ heightConsistent t ∧ avlBalanced t
  | .nil => by simp [avl, heightConsistent, avlBalanced]
  | .node k lv l r => by
    have ihl := avl_iff l
    have ihr := avl_iff r
    rw [avl, heightConsistent, avlBalanced, ihl, ihr]
    tauto

theorem keys_fix_height (t : Tree α) : keys (fix_height t) = keys t := by
  cases t <;> simp [fix_height, keys]

theorem height_fix_height (t : Tree α) : height (fix_height t) = height t := by
  cases t <;> simp [fix_height, height]

theorem keys_rotate_right (t : Tree α) : keys (rotate_right t) = keys t := by
  match t with
  | .nil => rfl
  | .node k lv .nil r => rfl
  | .node k lv (.node lk llv ll lr) r =>
      simp [rotate_right, fix_height, keys, List.append_assoc]

theorem keys_rotate_left (t : Tree α) : keys (rotate_left t) = keys t := by
  match t with
  | .nil => rfl
  | .node k lv l .nil => rfl
  | .node k lv l (.node rk rlv rl rr) =>
      simp [rotate_left, fix_height, keys, List.append_assoc]

theorem keys_balance (t : Tree α) : keys (balance t) = keys t := by
  cases t with
  | nil => rfl
  | node k lv l r =>
    show keys (match fix_height (Tree.node k lv l r) with
      | .nil => Tree.nil
      | .node k lv l r =>
        if bfactor (.node k lv l r) = 2 then
          if bfactor r < 0 then rotate_left (.node k lv l (rotate_right r))
          else rotate_left (.node k lv l r)
        else if bfactor (.node k lv l r) = -2 then
          if bfactor l > 0 then rotate_right (.node k lv (rotate_left l) r)
          else rotate_right (.node k lv l r)
        else .node k lv l r) = _
    simp only [fix_height]
    split_ifs <;>
      simp [keys_rotate_left, keys_rotate_right, keys]

theorem bst_iff_pairwise : ∀ t : Tree α, bst t ↔ (keys t).Pairwise (· < ·)
  | .nil => by simp [bst, keys]
  | .node k lv l r => by
    have ihl := bst_iff_pairwise l
    have ihr := bst_iff_pairwise r
    rw [bst, ihl, ihr, keys, List.pairwise_append, List.pairwise_cons]
    constructor
    · rintro ⟨h1, h2, pl, pr⟩
      refine ⟨pl, ⟨h2, pr⟩, ?_⟩
      intro x hx y hy
      rcases List.mem_cons.1 hy with rfl | hy
      · exact h1 x hx
      · exact lt_trans (h1 x hx) (h2 y hy)
    · rintro ⟨pl, ⟨h2, pr⟩, hcross⟩
      exact ⟨fun x hx => hcross x hx k (List.mem_cons_self k _), h2, pl, pr⟩

theorem bst_of_keys_eq {t u : Tree α} (hk : keys u = keys t) (h : bst t) : bst u := by
  rw [bst_iff_pairwise] at h ⊢
  rw [hk]
  exact h

theorem bst_balance {t : Tree α} (h : bst t) : bst (balance t) :=
  bst_of_keys_eq (keys_balance t) h

theorem balance_def (k : α) (lv : Nat) (l r : Tree α) :
    balance (.node k lv l r) =
      if (node_level r : Int) - node_level l = 2 then
        if bfactor r < 0 then
          rotate_left (.node k (max (node_level l) (node_level r) + 1) l (rotate_right r))
        else rotate_left (.node k (max (node_level l) (node_level r) + 1) l r)
      else if (node_level r : Int) - node_level l = -2 then
        if bfactor l > 0 then
          rotate_right (.node k (max (node_level l) (node_level r) + 1) (rotate_left l) r)
        else rotate_right (.node k (max (node_level l) (node_level r) + 1) l r)
      else .node k (max (node_level l) (node_level r) + 1) l r := rfl

theorem balance_small {k : α} {lv : Nat} {l r : Tree α}
    (hl : avl l) (hr : avl r)
    (h1 : height l ≤ height r + 1) (h2 : height r ≤ height l + 1) :
    balance (.node k lv l r) = .node k (max (height l) (height r) + 1) l r := by
  rw [balance_def, avl_level hl, avl_level hr]
  rw [if_neg (by omega), if_neg (by omega)]

theorem balance_id {k : α} {lv : Nat} {l r : Tree α}
    (h : avl (Tree.node k lv l r)) : balance (.node k lv l r) = .node k lv l r := by
  rw [avl] at h
  obtain ⟨hlv, h1, h2, hl, hr⟩ := h
  rw [balance_small hl hr h1 h2, hlv]

theorem bfactor_node {k : α} {lv : Nat} {l r : Tree α} :
    bfactor (.node k lv l r) = (node_level r : Int) - (node_level l : Int) := rfl

theorem balance_spec {k : α} {u : Nat} {l r : Tree α}
    (hl : avl l) (hr : avl r)
    (h1 : height l ≤ height r + 2) (h2 : height r ≤ height l + 2) :
    avl (balance (.node k u l r)) ∧
      max (height l) (height r) ≤ height (balance (.node k u l r)) ∧
      height (balance (.node k u l r)) ≤ max (height l) (height r) + 1 := by
  rw [balance_def, avl_level hl, avl_level hr]
  by_cases hd2 : (height r : Int) - height l = 2
  · rw [if_pos hd2]
    rcases r with _ | ⟨rk, rlv, rl, rr⟩
    · rw [height_nil] at hd2; omega
    · rw [avl] at hr
      obtain ⟨hrlv, hb1, hb2, hrl, hrr⟩ := hr
      rw [bfactor_node, avl_level hrl, avl_level hrr]
      by_cases hneg : (height rr : Int) - height rl < 0
      · rw [if_pos hneg]
        rcases rl with _ | ⟨a, alv, al, ar⟩
        · rw [height_nil] at hneg; omega
        · rw [avl] at hrl
          obtain ⟨halv, hc1, hc2, hal, har⟩ := hrl
          simp only [rotate_right, rotate_left, fix_height, node_level_node,
            avl_level hal, avl_level har, avl_level hl, avl_level hrr]
          simp only [height_node, height_nil] at hd2 h1 h2 hb1 hb2 hneg ⊢
          refine ⟨?_, ?_, ?_⟩
          · rw [avl, avl, avl]
            simp only [height_node]
            exact ⟨trivial, by omega, by omega,
              ⟨trivial, by omega, by omega, hl, hal⟩,
              trivial, by omega, by omega, har, hrr⟩
          · omega
          · omega
      · rw [if_neg hneg]
        simp only [rotate_left, fix_height, node_level_node,
          avl_level hl, avl_level hrl, avl_level hrr]
        simp only [height_node, height_nil] at hd2 h1 h2 ⊢
        refine ⟨?_, ?_, ?_⟩
        · rw [avl, avl]
          simp only [height_node]
          exact ⟨trivial, by omega, by omega,
            ⟨trivial, by omega, by omega, hl, hrl⟩, hrr⟩
        · omega
        · omega
  · rw [if_neg hd2]
    by_cases hdm2 : (height r : Int) - height l = -2
    · rw [if_pos hdm2]
      rcases l with _ | ⟨lk, llv, ll, lr⟩
      · rw [height_nil] at hdm2; omega
      · rw [avl] at hl
        obtain ⟨hllv, hb1, hb2, hll, hlr⟩ := hl
        rw [bfactor_node, avl_level hll, avl_level hlr]
        by_cases hpos : (height lr : Int) - height ll > 0
        · rw [if_pos hpos]
          rcases lr with _ | ⟨a, alv, al, ar⟩
          · rw [height_nil] at hpos; omega
          · rw [avl] at hlr
            obtain ⟨halv, hc1, hc2, hal, har⟩ := hlr
            simp only [rotate_left, rotate_right, fix_height, node_level_node,
              avl_level hal, avl_level har, avl_level hr, avl_level hll]
            simp only [height_node, height_nil] at hdm2 h1 h2 hb1 hb2 hpos ⊢
            refine ⟨?_, ?_, ?_⟩
            · rw [avl, avl, avl]
              simp only [height_node]
              exact ⟨trivial, by omega, by omega,
                ⟨trivial, by omega, by omega, hll, hal⟩,
                trivial, by omega, by omega, har, hr⟩
            · omega
            · omega
        · rw [if_neg hpos]
          simp only [rotate_right, fix_height, node_level_node,
            avl_level hr, avl_level hll, avl_level hlr]
          simp only [height_node, height_nil] at hdm2 h1 h2 ⊢
          refine ⟨?_, ?_, ?_⟩
          · rw [avl, avl]
            simp only [height_node]
            exact ⟨trivial, by omega, by omega, hll,
              trivial, by omega, by omega, hlr, hr⟩
          · omega
          · omega
    · rw [if_neg hdm2]
      refine ⟨?_, ?_, ?_⟩
      · rw [avl]
        exact ⟨rfl, by omega, by omega, hl, hr⟩
      · simp only [height_node]; omega
      · simp only [height_node]; omega

theorem mem_keys_node {x k : α} {lv : Nat} {l r : Tree α} :
    x ∈ keys (.node k lv l r) ↔ x ∈ keys l ∨ x = k ∨ x ∈ keys r := by
  simp [keys]

theorem insert_node {k v : α} {lv : Nat} {l r : Tree α} :
    insert (.node k lv l r) v =
      if v = k then (balance (.node k lv l r), false)
      else if v < k then (balance (.node k lv (insert l v).1 r), (insert l v).2)
      else (balance (.node k lv l (insert r v).1), (insert r v).2) := rfl

theorem avl_node_mk {k : α} {lv : Nat} {l r : Tree α}
    (hlv : lv = max (height l) (height r) + 1) (h1 : height l ≤ height r + 1)
    (h2 : height r ≤ height l + 1) (hl : avl l) (hr : avl r) :
    avl (Tree.node k lv l r) := by
  rw [avl]; exact ⟨hlv, h1, h2, hl, hr⟩

theorem bst_node_mk {k : α} {lv : Nat} {l r : Tree α}
    (hbl : ∀ x ∈ keys l, x < k) (hbr : ∀ x ∈ keys r, k < x)
    (hl : bst l) (hr : bst r) : bst (Tree.node k lv l r) := by
  rw [bst]; exact ⟨hbl, hbr, hl, hr⟩

/-- Inserting a key that is already present walks to that key, prints `FAIL`,
and every `balance` on the way back is the identity, so the returned subtree
is the argument itself. -/
theorem insert_dup : ∀ {t : Tree α} {v : α}, bst t → avl t → v ∈ keys t →
    insert t v = (t, false)
  | .nil, v, _, _, hv => by simp [keys] at hv
  | .node k lv l r, v, hb, ha, hv => by
    rw [bst] at hb
    obtain ⟨hbl, hbr, bl, br⟩ := hb
    have ha' := ha
    rw [avl] at ha'
    obtain ⟨hlv, h1, h2, al, ar⟩ := ha'
    rw [insert_node]
    by_cases hvk : v = k
    · rw [if_pos hvk, balance_id ha]
    · rw [if_neg hvk]
      rcases mem_keys_node.1 hv with hvl | hvk' | hvr
      · have hlt : v < k := hbl v hvl
        rw [if_pos hlt, insert_dup bl al hvl, balance_id ha]
      · exact absurd hvk' hvk
      · have hgt : k < v := hbr v hvr
        rw [if_neg (lt_asymm hgt), insert_dup br ar hvr, balance_id ha]

/-- Inserting a fresh key prints `OK`, preserves the BST and AVL invariants,
adds exactly that key, and grows the height by at most one. -/
theorem insert_fresh : ∀ {t : Tree α} {v : α}, bst t → avl t → v ∉ keys t →
    (insert t v).2 = true ∧ bst (insert t v).1 ∧ avl (insert t v).1 ∧
      (∀ x, x ∈ keys (insert t v).1 ↔ x ∈ keys t ∨ x = v) ∧
      height t ≤ height (insert t v).1 ∧ height (insert t v).1 ≤ height t + 1
  | .nil, v, _, _, _ => by
    refine ⟨rfl, ?_, ?_, ?_, by simp [insert, height_node, height_nil], by
      simp [insert, height_node, height_nil]⟩
    · rw [show (insert (.nil : Tree α) v).1 = .node v 1 .nil .nil from rfl]
      exact bst_node_mk (by simp [keys]) (by simp [keys]) trivial trivial
    · rw [show (insert (.nil : Tree α) v).1 = .node v 1 .nil .nil from rfl]
      exact avl_node_mk (by simp [height_nil]) (by simp [height_nil])
        (by simp [height_nil]) trivial trivial
    · intro x
      simp [insert, keys]
  | .node k lv l r, v, hb, ha, hv => by
    rw [bst] at hb
    obtain ⟨hbl, hbr, bl, br⟩ := hb
    rw [avl] at ha
    obtain ⟨hlv, h1, h2, al, ar⟩ := ha
    rw [mem_keys_node] at hv
    push_neg at hv
    obtain ⟨hvl, hvk, hvr⟩ := hv
    rw [insert_node, if_neg hvk]
    by_cases hlt : v < k
    · rw [if_pos hlt]
      dsimp only
      obtain ⟨p2, pbst, pavl, pkeys, ph1, ph2⟩ := insert_fresh bl al hvl
      have hbal : avl (balance (.node k lv (insert l v).1 r)) ∧
          max (height l) (height r) + 1 ≤ height (balance (.node k lv (insert l v).1 r)) ∧
          height (balance (.node k lv (insert l v).1 r)) ≤ max (height l) (height r) + 2 := by
        by_cases hsm : height (insert l v).1 ≤ height r + 1 ∧
            height r ≤ height (insert l v).1 + 1
        · rw [balance_small pavl ar hsm.1 hsm.2]
          refine ⟨avl_node_mk rfl hsm.1 hsm.2 pavl ar, ?_, ?_⟩ <;>
            (simp only [height_node]; omega)
        · obtain ⟨hsp1, hsp2, hsp3⟩ := balance_spec (k := k) (u := lv)
            pavl ar (by omega) (by omega)
          exact ⟨hsp1, by omega, by omega⟩
      refine ⟨p2, ?_, hbal.1, ?_, ?_, ?_⟩
      · apply bst_balance
        refine bst_node_mk ?_ hbr pbst br
        intro x hx
        rcases (pkeys x).1 hx with hx' | rfl
        · exact hbl x hx'
        · exact hlt
      · intro x
        rw [keys_balance, mem_keys_node, mem_keys_node, pkeys x]
        tauto
      · simp only [height_node]; omega
      · simp only [height_node]; omega
    · rw [if_neg hlt]
      dsimp only
      have hgt : k < v := by
        rcases lt_trichotomy v k with h | h | h
        · exact absurd h hlt
        · exact absurd h hvk
        · exact h
      obtain ⟨p2, pbst, pavl, pkeys, ph1, ph2⟩ := insert_fresh br ar hvr
      have hbal : avl (balance (.node k lv l (insert r v).1)) ∧
          max (height l) (height r) + 1 ≤ height (balance (.node k lv l (insert r v).1)) ∧
          height (balance (.node k lv l (insert r v).1)) ≤ max (height l) (height r) + 2 := by
        by_cases hsm : height l ≤ height (insert r v).1 + 1 ∧
            height (insert r v).1 ≤ height l + 1
        · rw [balance_small al pavl hsm.1 hsm.2]
          refine ⟨avl_node_mk rfl hsm.1 hsm.2 al pavl, ?_, ?_⟩ <;>
            (simp only [height_node]; omega)
        · obtain ⟨hsp1, hsp2, hsp3⟩ := balance_spec (k := k) (u := lv)
            al pavl (by omega) (by omega)
          exact ⟨hsp1, by omega, by omega⟩
      refine ⟨p2, ?_, hbal.1, ?_, ?_, ?_⟩
      · apply bst_balance
        refine bst_node_mk hbl ?_ bl pbst
        intro x hx
        rcases (pkeys x).1 hx with hx' | rfl
        · exact hbr x hx'
        · exact hgt
      · intro x
        rw [keys_balance, mem_keys_node, mem_keys_node, pkeys x]
        tauto
      · simp only [height_node]; omega
      · simp only [height_node]; omega

theorem keys_ne_nil {k : α} {u : Nat} {l r : Tree α} : keys (.node k u l r) ≠ [] := by
  simp [keys]

/-- `find_min` returns the leftmost node, whose key is the head of the
in-order key sequence (and whose left child is null). -/
theorem find_min_eq : ∀ {k : α} {u : Nat} {l r : Tree α},
    ∃ mk mlv mr rest, find_min (.node k u l r) = .node mk mlv .nil mr ∧
      keys (.node k u l r) = mk :: rest
  | k, u, .nil, r => ⟨k, u, r, keys r, rfl, by simp [keys]⟩
  | k, u, .node lk llv ll lr, r => by
    obtain ⟨mk, mlv, mr, rest, hf, hk⟩ := find_min_eq (k := lk) (u := llv) (l := ll) (r := lr)
    refine ⟨mk, mlv, mr, rest ++ k :: keys r, hf, ?_⟩
    rw [keys, hk]
    simp

/-- `remove_min` deletes exactly the head of the in-order key sequence. -/
theorem remove_min_keys : ∀ {k : α} {lv : Nat} {l r : Tree α},
    keys (remove_min (.node k lv l r)) = (keys (.node k lv l r)).tail
  | k, lv, .nil, r => by simp [remove_min, keys]
  | k, lv, .node lk llv ll lr, r => by
    rw [show remove_min (.node k lv (.node lk llv ll lr) r) =
      balance (.node k lv (remove_min (.node lk llv ll lr)) r) from rfl]
    rw [keys_balance, keys, remove_min_keys]
    obtain ⟨a, as, ha⟩ := List.exists_cons_of_ne_nil
      (keys_ne_nil (k := lk) (u := llv) (l := ll) (r := lr))
    rw [show keys (Tree.node k lv (Tree.node lk llv ll lr) r) =
      keys (Tree.node lk llv ll lr) ++ k :: keys r from rfl, ha]
    simp

/-- `remove_min` keeps the subtree a valid AVL tree and lowers its height by
at most one. -/
theorem remove_min_avl : ∀ {k : α} {lv : Nat} {l r : Tree α},
    avl (.node k lv l r) →
    avl (remove_min (.node k lv l r)) ∧
      height (remove_min (.node k lv l r)) ≤ height (.node k lv l r) ∧
      height (.node k lv l r) ≤ height (remove_min (.node k lv l r)) + 1
  | k, lv, .nil, r, ha => by
    rw [avl] at ha
    obtain ⟨hlv, h1, h2, _, ar⟩ := ha
    rw [show remove_min (.node k lv .nil r) = r from rfl]
    refine ⟨ar, ?_, ?_⟩ <;> (simp only [height_node, height_nil] at *; omega)
  | k, lv, .node lk llv ll lr, r, ha => by
    rw [avl] at ha
    obtain ⟨hlv, h1, h2, al, ar⟩ := ha
    obtain ⟨pavl, ph1, ph2⟩ := remove_min_avl al
    rw [show remove_min (.node k lv (.node lk llv ll lr) r) =
      balance (.node k lv (remove_min (.node lk llv ll lr)) r) from rfl]
    by_cases hsm : height (remove_min (.node lk llv ll lr)) ≤ height r + 1 ∧
        height r ≤ height (remove_min (.node lk llv ll lr)) + 1
    · rw [balance_small pavl ar hsm.1 hsm.2]
      refine ⟨avl_node_mk rfl hsm.1 hsm.2 pavl ar, ?_, ?_⟩ <;>
        (simp only [height_node] at *; omega)
    · obtain ⟨hsp1, hsp2, hsp3⟩ := balance_spec (k := k) (u := lv) pavl ar
        (by simp only [height_node] at *; omega)
        (by simp only [height_node] at *; omega)
      refine ⟨hsp1, ?_, ?_⟩ <;> (simp only [height_node] at *; omega)

/-- The tail of a pairwise-sorted list is pairwise sorted; applied to
`remove_min` through `remove_min_keys`. -/
theorem bst_remove_min {k : α} {lv : Nat} {l r : Tree α}
    (hb : bst (.node k lv l r)) : bst (remove_min (.node k lv l r)) := by
  rw [bst_iff_pairwise] at hb ⊢
  rw [remove_min_keys]
  obtain ⟨a, as, ha⟩ := List.exists_cons_of_ne_nil
    (keys_ne_nil (k := k) (u := lv) (l := l) (r := r))
  rw [ha] at hb ⊢
  exact (List.pairwise_cons.1 hb).2

theorem remove_node {k v : α} {lv : Nat} {l r : Tree α} :
    remove (.node k lv l r) v =
      if v < k then (balance (.node k lv (remove l v).1 r), (remove l v).2)
      else if v > k then (balance (.node k lv l (remove r v).1), (remove r v).2)
      else match r with
        | .nil => (l, true)
        | .node rk rlv rl rr =>
          match find_min (.node rk rlv rl rr) with
          | .node mk mlv _ _ =>
              (balance (.node mk mlv l (remove_min (.node rk rlv rl rr))), true)
          | .nil => (.nil, true) := rfl

/-- Removing an absent key walks to a null subtree, prints `FAIL`, and every
`balance` on the way back is the identity, leaving the tree unchanged. -/
theorem remove_absent : ∀ {t : Tree α} {v : α}, bst t → avl t → v ∉ keys t →
    remove t v = (t, false)
  | .nil, v, _, _, _ => rfl
  | .node k lv l r, v, hb, ha, hv => by
    have ha' := ha
    rw [bst] at hb
    rw [avl] at ha'
    obtain ⟨hbl, hbr, bl, br⟩ := hb
    obtain ⟨hlv, h1, h2, al, ar⟩ := ha'
    rw [mem_keys_node] at hv
    push_neg at hv
    obtain ⟨hvl, hvk, hvr⟩ := hv
    rw [remove_node]
    rcases lt_trichotomy v k with hlt | heq | hgt
    · rw [if_pos hlt, remove_absent bl al hvl]
      dsimp only
      rw [balance_id ha]
    · exact absurd heq hvk
    · rw [if_neg (lt_asymm hgt), if_pos hgt, remove_absent br ar hvr]
      dsimp only
      rw [balance_id ha]

/-- Removing a present key prints `OK`, preserves the BST and AVL invariants,
deletes exactly that key, and lowers the height by at most one. -/
theorem remove_found : ∀ {t : Tree α} {v : α}, bst t → avl t → v ∈ keys t →
    (remove t v).2 = true ∧ bst (remove t v).1 ∧ avl (remove t v).1 ∧
      (∀ x, x ∈ keys (remove t v).1 ↔ x ∈ keys t ∧ x ≠ v) ∧
      height (remove t v).1 ≤ height t ∧ height t ≤ height (remove t v).1 + 1
  | .nil, v, _, _, hv => by simp [keys] at hv
  | .node k lv l r, v, hb, ha, hv => by
    have hb' := hb
    have ha' := ha
    rw [bst] at hb'
    rw [avl] at ha'
    obtain ⟨hbl, hbr, bl, br⟩ := hb'
    obtain ⟨hlv, h1, h2, al, ar⟩ := ha'
    rw [remove_node]
    rcases lt_trichotomy v k with hlt | heq | hgt
    · rw [if_pos hlt]
      dsimp only
      have hvl : v ∈ keys l := by
        rcases mem_keys_node.1 hv with h | h | h
        · exact h
        · exact absurd h (ne_of_lt hlt)
        · exact absurd (hlt.trans (hbr v h)) (lt_irrefl v)
      obtain ⟨p2, pbst, pavl, pkeys, ph1, ph2⟩ := remove_found bl al hvl
      have hbal : avl (balance (.node k lv (remove l v).1 r)) ∧
          max (height l) (height r) ≤ height (balance (.node k lv (remove l v).1 r)) ∧
          height (balance (.node k lv (remove l v).1 r)) ≤ max (height l) (height r) + 1 := by
        by_cases hsm : height (remove l v).1 ≤ height r + 1 ∧
            height r ≤ height (remove l v).1 + 1
        · rw [balance_small pavl ar hsm.1 hsm.2]
          refine ⟨avl_node_mk rfl hsm.1 hsm.2 pavl ar, ?_, ?_⟩ <;>
            (simp only [height_node]; omega)
        · obtain ⟨hsp1, hsp2, hsp3⟩ := balance_spec (k := k) (u := lv)
            pavl ar (by omega) (by omega)
          exact ⟨hsp1, by omega, by omega⟩
      refine ⟨p2, ?_, hbal.1, ?_, ?_, ?_⟩
      · exact bst_balance (bst_node_mk
          (fun x hx => hbl x ((pkeys x).1 hx).1) hbr pbst br)
      · intro x
        rw [keys_balance, mem_keys_node, mem_keys_node, pkeys x]
        have hk : ¬ k = v := fun h => absurd (h ▸ hlt) (lt_irrefl v)
        have hrx : x ∈ keys r → ¬ x = v :=
          fun h hx => absurd (hx ▸ (hlt.trans (hbr x h))) (lt_irrefl v)
        constructor
        · rintro (⟨h, hne⟩ | h | h)
          · exact ⟨Or.inl h, hne⟩
          · exact ⟨Or.inr (Or.inl h), h ▸ hk⟩
          · exact ⟨Or.inr (Or.inr h), hrx h⟩
        · rintro ⟨h | h | h, hne⟩
          · exact Or.inl ⟨h, hne⟩
          · exact Or.inr (Or.inl h)
          · exact Or.inr (Or.inr h)
      · simp only [height_node]; omega
      · simp only [height_node]; omega
    · rw [if_neg (heq ▸ lt_irrefl v), if_neg (heq ▸ lt_irrefl v)]
      subst heq
      rcases r with _ | ⟨rk, rlv, rl, rr⟩
      · dsimp only
        refine ⟨rfl, bl, al, ?_, ?_, ?_⟩
        · intro x
          have hx : x ∈ keys l → ¬ x = v :=
            fun h hx => absurd (hx ▸ hbl x h) (lt_irrefl v)
          constructor
          · intro h
            exact ⟨mem_keys_node.2 (Or.inl h), hx h⟩
          · rintro ⟨h, hne⟩
            rcases mem_keys_node.1 h with h | h | h
            · exact h
            · exact absurd h hne
            · simp [keys] at h
        · simp only [height_node, height_nil]; omega
        · simp only [height_node, height_nil]; omega
      · dsimp only
        obtain ⟨mk, mlv, mr, rest, hfm, hkr⟩ :=
          find_min_eq (k := rk) (u := rlv) (l := rl) (r := rr)
        rw [hfm]
        dsimp only
        have hmkmem : mk ∈ keys (.node rk rlv rl rr) := by rw [hkr]; simp
        have hkmk : v < mk := hbr mk hmkmem
        have hpw : ∀ x ∈ rest, mk < x := by
          have := (bst_iff_pairwise _).1 br
          rw [hkr] at this
          exact (List.pairwise_cons.1 this).1
        have rmk : keys (remove_min (.node rk rlv rl rr)) = rest := by
          rw [remove_min_keys, hkr]
          rfl
        obtain ⟨qavl, qh1, qh2⟩ := remove_min_avl ar
        simp only [height_node] at h1 h2 qh1 qh2
        have hbal : avl (balance (.node mk mlv l (remove_min (.node rk rlv rl rr)))) ∧
            max (height l) (max (height rl) (height rr) + 1) ≤
              height (balance (.node mk mlv l (remove_min (.node rk rlv rl rr)))) ∧
            height (balance (.node mk mlv l (remove_min (.node rk rlv rl rr)))) ≤
              max (height l) (max (height rl) (height rr) + 1) + 1 := by
          by_cases hsm : height l ≤ height (remove_min (.node rk rlv rl rr)) + 1 ∧
              height (remove_min (.node rk rlv rl rr)) ≤ height l + 1
          · rw [balance_small al qavl hsm.1 hsm.2]
            refine ⟨avl_node_mk rfl hsm.1 hsm.2 al qavl, ?_, ?_⟩ <;>
              (simp only [height_node]; omega)
          · obtain ⟨hsp1, hsp2, hsp3⟩ := balance_spec (k := mk) (u := mlv)
              al qavl (by omega) (by omega)
            exact ⟨hsp1, by omega, by omega⟩
        refine ⟨rfl, ?_, hbal.1, ?_, ?_, ?_⟩
        · refine bst_balance (bst_node_mk
            (fun x hx => (hbl x hx).trans hkmk) ?_ bl (bst_remove_min br))
          intro x hx
          rw [rmk] at hx
          exact hpw x hx
        · intro x
          rw [keys_balance, mem_keys_node, mem_keys_node, rmk]
          have hxl : x ∈ keys l → ¬ x = v :=
            fun h hx => absurd (hx ▸ hbl x h) (lt_irrefl v)
          have hmemr : x ∈ keys (.node rk rlv rl rr) ↔ x = mk ∨ x ∈ rest := by
            rw [hkr]; simp
          rw [hmemr]
          have hmkne : ¬ mk = v := fun h => absurd (h ▸ hkmk) (lt_irrefl v)
          have hrestne : x ∈ rest → ¬ x = v :=
            fun h hx => absurd (hx ▸ (hkmk.trans (hpw x h))) (lt_irrefl v)
          constructor
          · rintro (h | h | h)
            · exact ⟨Or.inl h, hxl h⟩
            · exact ⟨Or.inr (Or.inr (Or.inl h)), h ▸ hmkne⟩
            · exact ⟨Or.inr (Or.inr (Or.inr h)), hrestne h⟩
          · rintro ⟨h | h | h | h, hne⟩
            · exact Or.inl h
            · exact absurd h hne
            · exact Or.inr (Or.inl h)
            · exact Or.inr (Or.inr h)
        · simp only [height_node]; omega
        · simp only [height_node]; omega
    · rw [if_neg (lt_asymm hgt), if_pos hgt]
      dsimp only
      have hvr : v ∈ keys r := by
        rcases mem_keys_node.1 hv with h | h | h
        · exact absurd (hgt.trans (hbl v h)) (lt_irrefl k)
        · exact absurd h (ne_of_gt hgt)
        · exact h
      obtain ⟨p2, pbst, pavl, pkeys, ph1, ph2⟩ := remove_found br ar hvr
      have hbal : avl (balance (.node k lv l (remove r v).1)) ∧
          max (height l) (height r) ≤ height (balance (.node k lv l (remove r v).1)) ∧
          height (balance (.node k lv l (remove r v).1)) ≤ max (height l) (height r) + 1 := by
        by_cases hsm : height l ≤ height (remove r v).1 + 1 ∧
            height (remove r v).1 ≤ height l + 1
        · rw [balance_small al pavl hsm.1 hsm.2]
          refine ⟨avl_node_mk rfl hsm.1 hsm.2 al pavl, ?_, ?_⟩ <;>
            (simp only [height_node]; omega)
        · obtain ⟨hsp1, hsp2, hsp3⟩ := balance_spec (k := k) (u := lv)
            al pavl (by omega) (by omega)
          exact ⟨hsp1, by omega, by omega⟩
      refine ⟨p2, ?_, hbal.1, ?_, ?_, ?_⟩
      · exact bst_balance (bst_node_mk hbl
          (fun x hx => hbr x ((pkeys x).1 hx).1) bl pbst)
      · intro x
        rw [keys_balance, mem_keys_node, mem_keys_node, pkeys x]
        have hk : ¬ k = v := fun h => absurd (h ▸ hgt) (lt_irrefl v)
        have hlx : x ∈ keys l → ¬ x = v :=
          fun h hx => absurd (hx ▸ ((hbl x h).trans hgt)) (lt_irrefl x)
        constructor
        · rintro (h | h | ⟨h, hne⟩)
          · exact ⟨Or.inl h, hlx h⟩
          · exact ⟨Or.inr (Or.inl h), h ▸ hk⟩
          · exact ⟨Or.inr (Or.inr h), hne⟩
        · rintro ⟨h | h | h, hne⟩
          · exact Or.inl h
          · exact Or.inr (Or.inl h)
          · exact Or.inr (Or.inr ⟨h, hne⟩)
      · simp only [height_node]; omega
      · simp only [height_node]; omega

theorem search_node {k v : α} {lv : Nat} {l r : Tree α} :
    search (.node k lv l r) v =
      if k = v then some (.node k lv l r)
      else if k < v then search r v else search l v := rfl

/-- A successful `search` returns a node whose key is the searched key. -/
theorem search_some : ∀ {t : Tree α} {v : α} {u : Tree α}, search t v = some u →
    ∃ ulv ul ur, u = .node v ulv ul ur
  | .nil, v, u, h => by simp [search] at h
  | .node k lv l r, v, u, h => by
    rw [search_node] at h
    split_ifs at h with h1 h2
    · obtain rfl := Option.some.inj h
      exact ⟨lv, l, r, by rw [h1]⟩
    · exact search_some h
    · exact search_some h

/-- On a BST, `search` succeeds exactly on present keys. -/
theorem search_isSome : ∀ {t : Tree α} {v : α}, bst t →
    ((search t v).isSome ↔ v ∈ keys t)
  | .nil, v, _ => by simp [search, keys]
  | .node k lv l r, v, hb => by
    rw [bst] at hb
    obtain ⟨hbl, hbr, bl, br⟩ := hb
    rw [search_node, mem_keys_node]
    by_cases h1 : k = v
    · simp [h1]
    · rw [if_neg h1]
      by_cases h2 : k < v
      · rw [if_pos h2, search_isSome br]
        have hnl : v ∉ keys l := fun h => absurd ((hbl v h).trans h2) (lt_irrefl v)
        have hnk : ¬ v = k := fun h => h1 h.symm
        tauto
      · rw [if_neg h2, search_isSome bl]
        have hvk : v < k := by
          rcases lt_trichotomy v k with h | h | h
          · exact h
          · exact absurd h.symm h1
          · exact absurd h h2
        have hnr : v ∉ keys r := fun h => absurd (hvk.trans (hbr v h)) (lt_irrefl v)
        have hnk : ¬ v = k := fun h => h1 h.symm
        tauto

/-- One public operation preserves the BST and AVL invariants. -/
theorem applyOp_valid {t : Tree α} (hb : bst t) (ha : avl t) (op : Op α) :
    bst (applyOp t op) ∧ avl (applyOp t op) := by
  rcases op with v | v | v
  · show bst (insert t v).1 ∧ avl (insert t v).1
    by_cases hv : v ∈ keys t
    · rw [insert_dup hb ha hv]
      exact ⟨hb, ha⟩
    · obtain ⟨_, h1, h2, _⟩ := insert_fresh hb ha hv
      exact ⟨h1, h2⟩
  · show bst (remove t v).1 ∧ avl (remove t v).1
    by_cases hv : v ∈ keys t
    · obtain ⟨_, h1, h2, _⟩ := remove_found hb ha hv
      exact ⟨h1, h2⟩
    · rw [remove_absent hb ha hv]
      exact ⟨hb, ha⟩
  · exact ⟨hb, ha⟩

theorem foldl_valid : ∀ (ops : List (Op α)) (s : Tree α), bst s → avl s →
    bst (List.foldl applyOp s ops) ∧ avl (List.foldl applyOp s ops)
  | [], s, hb, ha => ⟨hb, ha⟩
  | op :: ops, s, hb, ha => by
    rw [List.foldl_cons]
    obtain ⟨hb1, ha1⟩ := applyOp_valid hb ha op
    exact foldl_valid ops (applyOp s op) hb1 ha1

/-- Every reachable tree satisfies the BST and combined AVL invariants. -/
theorem reachable_valid {t : Tree α} (h : reachable t) : bst t ∧ avl t := by
  obtain ⟨ops, rfl⟩ := h
  exact foldl_valid ops .nil trivial trivial

/-- Strict sortedness of the in-order keys gives key uniqueness. -/
theorem bst_nodup {t : Tree α} (h : bst t) : (keys t).Nodup :=
  ((bst_iff_pairwise t).1 h).imp ne_of_lt

/-- Key-membership effect of one public operation on a valid tree. -/
theorem applyOp_mem {t : Tree α} (hb : bst t) (ha : avl t) (op : Op α) (x : α) :
    x ∈ keys (applyOp t op) ↔
      (match op with
       | .ins v => x ∈ keys t ∨ x = v
       | .del v => x ∈ keys t ∧ x ≠ v
       | .qry _ => x ∈ keys t) := by
  rcases op with v | v | v
  · show x ∈ keys (insert t v).1 ↔ _
    by_cases hv : v ∈ keys t
    · rw [insert_dup hb ha hv]
      constructor
      · exact fun h => Or.inl h
      · rintro (h | rfl)
        · exact h
        · exact hv
    · exact (insert_fresh hb ha hv).2.2.2.1 x
  · show x ∈ keys (remove t v).1 ↔ _
    by_cases hv : v ∈ keys t
    · exact (remove_found hb ha hv).2.2.2.1 x
    · rw [remove_absent hb ha hv]
      constructor
      · exact fun h => ⟨h, fun hx => hv (hx ▸ h)⟩
      · exact fun h => h.1
  · exact Iff.rfl

/-- `insertedNotRemoved ops k`: some operation of `ops` is `insert k` and no
operation after it is `remove k`. -/
def insertedNotRemoved : List (Op α) → α → Prop
  | [], _ => False
  | op :: ops, k => insertedNotRemoved ops k ∨ (op = .ins k ∧ (Op.del k) ∉ ops)

instance decInsertedNotRemoved [DecidableEq α] :
    ∀ (ops : List (Op α)) (k : α), Decidable (insertedNotRemoved ops k)
  | [], _ => .isFalse (fun h => h)
  | op :: ops, k =>
    have : Decidable (insertedNotRemoved ops k) := decInsertedNotRemoved ops k
    decidable_of_iff (insertedNotRemoved ops k ∨ (op = .ins k ∧ (Op.del k) ∉ ops))
      Iff.rfl

/-- The recursive form of `insertedNotRemoved` coincides with the positional
reading: an index holding `insert k` with no later index holding `remove k`. -/
theorem insertedNotRemoved_iff : ∀ (ops : List (Op α)) (k : α),
    insertedNotRemoved ops k ↔
      ∃ i : Nat, ops[i]? = some (Op.ins k) ∧
        ∀ j : Nat, i < j → ops[j]? ≠ some (Op.del k)
  | [], k => by
    constructor
    · intro h
      exact absurd h (fun h => h)
    · rintro ⟨i, hi, _⟩
      simp at hi
  | op :: ops, k => by
    rw [show insertedNotRemoved (op :: ops) k =
      (insertedNotRemoved ops k ∨ (op = .ins k ∧ (Op.del k) ∉ ops)) from rfl]
    rw [insertedNotRemoved_iff ops k]
    constructor
    · rintro (⟨i, hi, hj⟩ | ⟨rfl, hnd⟩)
      · refine ⟨i + 1, by simpa using hi, ?_⟩
        intro j hij
        rcases j with _ | j
        · omega
        · rw [List.getElem?_cons_succ]
          exact hj j (by omega)
      · refine ⟨0, by simp, ?_⟩
        intro j hj
        rcases j with _ | j
        · omega
        · rw [List.getElem?_cons_succ]
          intro hmem
          exact hnd (List.mem_iff_getElem?.mpr ⟨_, hmem⟩)
    · rintro ⟨i, hi, hj⟩
      rcases i with _ | i
      · rw [List.getElem?_cons_zero] at hi
        obtain rfl := Option.some.inj hi
        right
        refine ⟨rfl, ?_⟩
        intro hmem
        obtain ⟨n, hn⟩ := List.getElem?_of_mem hmem
        exact hj (n + 1) (by omega) (by simpa using hn)
      · rw [List.getElem?_cons_succ] at hi
        left
        refine ⟨i, hi, ?_⟩
        intro j hij
        have := hj (j + 1) (by omega)
        simpa using this

/-- Membership in the tree produced by running `ops` from a valid start `t`. -/
theorem mem_foldl_applyOp : ∀ (ops : List (Op α)) (t : Tree α), bst t → avl t → ∀ k : α,
    (k ∈ keys (List.foldl applyOp t ops) ↔
      insertedNotRemoved ops k ∨ (k ∈ keys t ∧ (Op.del k) ∉ ops))
  | [], t, hb, ha, k => by
    rw [List.foldl_nil]
    rw [show insertedNotRemoved ([] : List (Op α)) k = False from rfl]
    simp
  | op :: ops, t, hb, ha, k => by
    rw [List.foldl_cons]
    obtain ⟨hb1, ha1⟩ := applyOp_valid hb ha op
    rw [mem_foldl_applyOp ops (applyOp t op) hb1 ha1 k]
    rw [show insertedNotRemoved (op :: ops) k =
      (insertedNotRemoved ops k ∨ (op = .ins k ∧ (Op.del k) ∉ ops)) from rfl]
    rw [applyOp_mem hb ha op k, List.mem_cons]
    rcases op with v | v | v
    · have hne : ¬ (Op.del k = Op.ins v) := by simp
      have hq : (Op.ins v = Op.ins k) ↔ v = k := by simp
      rw [hq]
      by_cases hvk : v = k
      · have h1 : k = v := hvk.symm
        tauto
      · have h3 : ¬ (k = v) := fun h => hvk h.symm
        tauto
    · have hne : ¬ (Op.del v = Op.ins k) := by simp
      have hde : (Op.del k = Op.del v) ↔ k = v := by simp
      rw [hde]
      simp only [ne_eq]
      tauto
    · have hne1 : ¬ (Op.qry v = Op.ins k) := by simp
      have hne2 : ¬ (Op.del k = Op.qry v) := by simp
      tauto

/-- C1: after every public operation (insert, remove, search) returns — i.e.
for every tree reachable by a finite operation sequence from the empty tree —
the tree satisfies binary-search-tree order, AVL balance of true subtree
heights, consistency of every stored `level` field, and key uniqueness. -/
theorem c1_invariants_after_ops {t : Tree α} (h : reachable t) :
    bst t ∧ avlBalanced t ∧ heightConsistent t ∧ (keys t).Nodup := by
  obtain ⟨hb, ha⟩ := reachable_valid h
  obtain ⟨hc, hba⟩ := (avl_iff t).1 ha
  exact ⟨hb, hba, hc, bst_nodup hb⟩

theorem c1_invariants_after_ops_witness :
    bst (runOps [Op.ins 2, Op.ins 1, Op.ins 3, Op.del 2] : Tree ℕ) ∧
      avlBalanced (runOps [Op.ins 2, Op.ins 1, Op.ins 3, Op.del 2] : Tree ℕ) ∧
      heightConsistent (runOps [Op.ins 2, Op.ins 1, Op.ins 3, Op.del 2] : Tree ℕ) ∧
      (keys (runOps [Op.ins 2, Op.ins 1, Op.ins 3, Op.del 2] : Tree ℕ)).Nodup :=
  c1_invariants_after_ops ⟨[Op.ins 2, Op.ins 1, Op.ins 3, Op.del 2], rfl⟩

/-- C2: for every finite sequence of insert/remove/search operations run from
the empty tree and every key `k`, `search k` succeeds — returns a node whose
key equals `k` — exactly when some operation of the sequence is `insert k` and
no later operation is `remove k`. -/
theorem c2_search_roundtrip (ops : List (Op α)) (k : α) :
    (∃ ulv ul ur, search (runOps ops) k = some (.node k ulv ul ur)) ↔
      ∃ i : Nat, ops[i]? = some (Op.ins k) ∧
        ∀ j : Nat, i < j → ops[j]? ≠ some (Op.del k) := by
  obtain ⟨hb, ha⟩ := reachable_valid (t := runOps ops) ⟨ops, rfl⟩
  rw [← insertedNotRemoved_iff]
  have hmem := mem_foldl_applyOp ops .nil trivial trivial k
  have hnil : ¬ (k ∈ keys (.nil : Tree α) ∧ (Op.del k) ∉ ops) := by
    rintro ⟨h, _⟩
    simp [keys] at h
  constructor
  · rintro ⟨ulv, ul, ur, hs⟩
    have hsome : (search (runOps ops) k).isSome = true := by rw [hs]; rfl
    have hk : k ∈ keys (runOps ops) := (search_isSome hb).1 hsome
    rcases hmem.1 hk with h | h
    · exact h
    · exact absurd h hnil
  · intro h
    have hk : k ∈ keys (runOps ops) := hmem.2 (Or.inl h)
    have hsome : (search (runOps ops) k).isSome = true := (search_isSome hb).2 hk
    obtain ⟨u, hu⟩ := Option.isSome_iff_exists.1 hsome
    obtain ⟨ulv, ul, ur, rfl⟩ := search_some hu
    exact ⟨ulv, ul, ur, hu⟩

/-- C3: inserting a key already present in a reachable tree reports the
duplicate-key failure (the `FAIL` signal) and returns a structurally identical
tree: same shape, same keys, and same stored `level` at every node. -/
theorem c3_insert_duplicate_id {t : Tree α} {k : α}
    (h : reachable t) (hk : k ∈ keys t) : insert t k = (t, false) := by
  obtain ⟨hb, ha⟩ := reachable_valid h
  exact insert_dup hb ha hk

theorem c3_insert_duplicate_id_witness :
    insert (runOps [Op.ins 2, Op.ins 1, Op.ins 3] : Tree ℕ) 3 =
      (runOps [Op.ins 2, Op.ins 1, Op.ins 3], false) :=
  c3_insert_duplicate_id ⟨[Op.ins 2, Op.ins 1, Op.ins 3], rfl⟩ (by decide)

/-- C4: removing a key absent from a reachable tree reports the not-found
failure (the `FAIL` signal) and leaves the tree exactly unchanged: same shape,
same keys, and same stored `level` at every node. -/
theorem c4_remove_absent_id {t : Tree α} {k : α}
    (h : reachable t) (hk : k ∉ keys t) : remove t k = (t, false) := by
  obtain ⟨hb, ha⟩ := reachable_valid h
  exact remove_absent hb ha hk

theorem c4_remove_absent_id_witness :
    remove (runOps [Op.ins 2, Op.ins 1, Op.ins 3] : Tree ℕ) 7 =
      (runOps [Op.ins 2, Op.ins 1, Op.ins 3], false) :=
  c4_remove_absent_id ⟨[Op.ins 2, Op.ins 1, Op.ins 3], rfl⟩ (by decide)

/-- C5 counterexample: a node whose two subtrees each satisfy the AVL balance
invariant (and are height-consistent) but whose heights differ by 3; `balance`
takes no branch (the balance factor is 3, not 2) and returns the node with
only its height recomputed, so the returned subtree violates the AVL balance
invariant, contradicting the claim as stated. -/
theorem c5_balance_counterexample :
    avlBalanced (Tree.nil : Tree ℕ) ∧ heightConsistent (Tree.nil : Tree ℕ) ∧
      avlBalanced (Tree.node 3 3 (Tree.node 2 1 Tree.nil Tree.nil)
        (Tree.node 4 2 Tree.nil (Tree.node 5 1 Tree.nil Tree.nil)) : Tree ℕ) ∧
      heightConsistent (Tree.node 3 3 (Tree.node 2 1 Tree.nil Tree.nil)
        (Tree.node 4 2 Tree.nil (Tree.node 5 1 Tree.nil Tree.nil)) : Tree ℕ) ∧
      ¬ avlBalanced (balance (Tree.node 1 4 Tree.nil
        (Tree.node 3 3 (Tree.node 2 1 Tree.nil Tree.nil)
          (Tree.node 4 2 Tree.nil (Tree.node 5 1 Tree.nil Tree.nil))) : Tree ℕ)) := by
  decide

/-- C5 (amended): the rebalance step, applied to a node whose two subtrees
each satisfy the AVL invariant **and whose heights differ by at most 2**,
first recomputes the node height; if the balance factor is 2 it rotates the
right child right exactly when that child's balance factor is negative and
then rotates the node left; symmetrically for -2; otherwise it returns the
node unchanged (height recomputed); the returned subtree satisfies the AVL
balance invariant and carries exactly the same keys in the same BST order. -/
theorem c5_balance_branches_amended {k : α} {u : Nat} {l r : Tree α}
    (hl : avl l) (hr : avl r)
    (h1 : height l ≤ height r + 2) (h2 : height r ≤ height l + 2) :
    (bfactor (fix_height (.node k u l r)) = 2 →
      (bfactor r < 0 → balance (.node k u l r) =
        rotate_left (.node k (max (node_level l) (node_level r) + 1) l (rotate_right r))) ∧
      (0 ≤ bfactor r → balance (.node k u l r) =
        rotate_left (.node k (max (node_level l) (node_level r) + 1) l r))) ∧
    (bfactor (fix_height (.node k u l r)) = -2 →
      (0 < bfactor l → balance (.node k u l r) =
        rotate_right (.node k (max (node_level l) (node_level r) + 1) (rotate_left l) r)) ∧
      (bfactor l ≤ 0 → balance (.node k u l r) =
        rotate_right (.node k (max (node_level l) (node_level r) + 1) l r))) ∧
    (bfactor (fix_height (.node k u l r)) ≠ 2 →
      bfactor (fix_height (.node k u l r)) ≠ -2 →
      balance (.node k u l r) = fix_height (.node k u l r)) ∧
    avlBalanced (balance (.node k u l r)) ∧
    keys (balance (.node k u l r)) = keys (.node k u l r) ∧
    (bst (.node k u l r) → bst (balance (.node k u l r))) := by
  obtain ⟨hsp1, _, _⟩ := balance_spec (k := k) (u := u) hl hr h1 h2
  have hbf : bfactor (fix_height (.node k u l r)) =
      (node_level r : Int) - node_level l := rfl
  refine ⟨?_, ?_, ?_, ((avl_iff _).1 hsp1).2, keys_balance _, fun hb => bst_balance hb⟩
  · intro hc
    rw [hbf] at hc
    constructor
    · intro hneg
      rw [balance_def, if_pos hc, if_pos hneg]
    · intro hpos
      rw [balance_def, if_pos hc, if_neg (not_lt.2 hpos)]
  · intro hc
    rw [hbf] at hc
    constructor
    · intro hpos
      rw [balance_def, if_neg (by omega), if_pos hc, if_pos hpos]
    · intro hneg
      rw [balance_def, if_neg (by omega), if_pos hc, if_neg (not_lt.2 hneg)]
  · intro hne2 hnem2
    rw [hbf] at hne2 hnem2
    rw [balance_def, if_neg hne2, if_neg hnem2]
    rfl

theorem c5_balance_branches_amended_witness :
    avlBalanced (balance (Tree.node 1 1 Tree.nil
      (Tree.node 2 2 Tree.nil (Tree.node 3 1 Tree.nil Tree.nil)) : Tree ℕ)) ∧
    keys (balance (Tree.node 1 1 Tree.nil
      (Tree.node 2 2 Tree.nil (Tree.node 3 1 Tree.nil Tree.nil)) : Tree ℕ)) =
      keys (Tree.node 1 1 Tree.nil
        (Tree.node 2 2 Tree.nil (Tree.node 3 1 Tree.nil Tree.nil)) : Tree ℕ) :=
  ⟨(c5_balance_branches_amended (by decide) (by decide) (by decide)
      (by decide)).2.2.2.1,
   (c5_balance_branches_amended (k := 1) (u := 1) (l := (Tree.nil : Tree ℕ))
      (r := Tree.node 2 2 Tree.nil (Tree.node 3 1 Tree.nil Tree.nil))
      (by decide) (by decide) (by decide) (by decide)).2.2.2.2.1⟩

/-- C6: when `remove k` reaches the node holding `k`: with no right child the
left child replaces the node directly; otherwise the in-order successor — the
leftmost node of the right subtree found by `find_min`, which holds the
minimum key of that subtree — is detached by `remove_min` (removing exactly
that key and keeping the right subtree a valid AVL tree), and the successor is
spliced in over the removed node's left subtree and the processed right
subtree, with the spliced node passed through `balance`. -/
theorem c6_remove_at_found_node {k : α} {lv : Nat} {l r : Tree α}
    (hb : bst (.node k lv l r)) (ha : avl (.node k lv l r)) :
    (r = .nil → remove (.node k lv l r) k = (l, true)) ∧
    (r ≠ .nil →
      ∃ mk mlv mr, find_min r = .node mk mlv .nil mr ∧
        mk ∈ keys r ∧ (∀ x ∈ keys r, mk ≤ x) ∧
        (∀ x, x ∈ keys (remove_min r) ↔ x ∈ keys r ∧ x ≠ mk) ∧
        avl (remove_min r) ∧
        remove (.node k lv l r) k = (balance (.node mk mlv l (remove_min r)), true)) := by
  rw [bst] at hb
  obtain ⟨hbl, hbr, bl, br⟩ := hb
  rw [avl] at ha
  obtain ⟨hlv, h1, h2, al, ar⟩ := ha
  constructor
  · rintro rfl
    rw [remove_node, if_neg (lt_irrefl k), if_neg (lt_irrefl k)]
  · intro hne
    rcases r with _ | ⟨rk, rlv, rl, rr⟩
    · exact absurd rfl hne
    · obtain ⟨mk, mlv, mr, rest, hfm, hkr⟩ :=
        find_min_eq (k := rk) (u := rlv) (l := rl) (r := rr)
      have hpw : ∀ x ∈ rest, mk < x := by
        have := (bst_iff_pairwise _).1 br
        rw [hkr] at this
        exact (List.pairwise_cons.1 this).1
      have rmk : keys (remove_min (.node rk rlv rl rr)) = rest := by
        rw [remove_min_keys, hkr]
        rfl
      refine ⟨mk, mlv, mr, hfm, ?_, ?_, ?_, (remove_min_avl ar).1, ?_⟩
      · rw [hkr]
        exact List.mem_cons_self mk rest
      · intro x hx
        rw [hkr] at hx
        rcases List.mem_cons.1 hx with rfl | hx
        · exact le_refl x
        · exact le_of_lt (hpw x hx)
      · intro x
        rw [rmk, hkr]
        constructor
        · intro hx
          exact ⟨List.mem_cons_of_mem mk hx, (hpw x hx).ne'⟩
        · rintro ⟨hx, hne'⟩
          rcases List.mem_cons.1 hx with rfl | hx
          · exact absurd rfl hne'
          · exact hx
      · rw [remove_node, if_neg (lt_irrefl k), if_neg (lt_irrefl k)]
        dsimp only
        rw [hfm]

theorem c6_remove_at_found_node_witness :
    (Tree.node 3 1 Tree.nil Tree.nil = Tree.nil →
      remove (Tree.node 2 2 (Tree.node 1 1 Tree.nil Tree.nil)
        (Tree.node 3 1 Tree.nil Tree.nil) : Tree ℕ) 2 =
        (Tree.node 1 1 Tree.nil Tree.nil, true)) ∧
    (Tree.node 3 1 Tree.nil Tree.nil ≠ Tree.nil →
      ∃ mk mlv mr, find_min (Tree.node 3 1 Tree.nil Tree.nil : Tree ℕ) =
          Tree.node mk mlv Tree.nil mr ∧
        mk ∈ keys (Tree.node 3 1 Tree.nil Tree.nil : Tree ℕ) ∧
        (∀ x ∈ keys (Tree.node 3 1 Tree.nil Tree.nil : Tree ℕ), mk ≤ x) ∧
        (∀ x, x ∈ keys (remove_min (Tree.node 3 1 Tree.nil Tree.nil : Tree ℕ)) ↔
          x ∈ keys (Tree.node 3 1 Tree.nil Tree.nil : Tree ℕ) ∧ x ≠ mk) ∧
        avl (remove_min (Tree.node 3 1 Tree.nil Tree.nil : Tree ℕ)) ∧
        remove (Tree.node 2 2 (Tree.node 1 1 Tree.nil Tree.nil)
          (Tree.node 3 1 Tree.nil Tree.nil) : Tree ℕ) 2 =
          (balance (Tree.node mk mlv (Tree.node 1 1 Tree.nil Tree.nil)
            (remove_min (Tree.node 3 1 Tree.nil Tree.nil))), true)) :=
  c6_remove_at_found_node (by decide) (by decide)

/-- C10: in `balance`, on a node whose children are height-consistent, a
balance factor of 2 implies the right child is present, and if that child's
balance factor is negative its own left child is present and its right
rotation yields a non-null node — so no dereference in the branch touches a
null pointer; symmetrically for balance factor -2. -/
theorem c10_balance_branch_null_safe {k : α} (lv : Nat) {l r : Tree α}
    (hcl : heightConsistent l) (hcr : heightConsistent r) :
    (bfactor (fix_height (.node k lv l r)) = 2 →
      r ≠ .nil ∧ (bfactor r < 0 →
        (∀ rk rlv rl rr, r = .node rk rlv rl rr → rl ≠ .nil) ∧
        rotate_right r ≠ .nil)) ∧
    (bfactor (fix_height (.node k lv l r)) = -2 →
      l ≠ .nil ∧ (0 < bfactor l →
        (∀ lk llv ll lr, l = .node lk llv ll lr → lr ≠ .nil) ∧
        rotate_left l ≠ .nil)) := by
  have hbf : bfactor (fix_height (.node k lv l r)) =
      (node_level r : Int) - node_level l := rfl
  constructor
  · intro hc
    rw [hbf] at hc
    have hrn : r ≠ .nil := by
      intro hr
      rw [hr, node_level_nil] at hc
      omega
    refine ⟨hrn, ?_⟩
    intro hneg
    rcases r with _ | ⟨rk, rlv, rl, rr⟩
    · exact absurd rfl hrn
    · rw [bfactor_node] at hneg
      have hrl : rl ≠ .nil := by
        intro hrl
        rw [hrl, node_level_nil] at hneg
        omega
      refine ⟨?_, ?_⟩
      · intro rk' rlv' rl' rr' heq
        injection heq with _ _ h3 _
        rw [← h3]
        exact hrl
      · rcases rl with _ | ⟨a, alv, al, ar⟩
        · exact absurd rfl hrl
        · intro hrot
          rw [show rotate_right (.node rk rlv (.node a alv al ar) rr) =
            fix_height (.node a alv al (fix_height (.node rk rlv ar rr))) from rfl] at hrot
          exact Tree.noConfusion hrot
  · intro hc
    rw [hbf] at hc
    have hln : l ≠ .nil := by
      intro hl
      rw [hl, node_level_nil] at hc
      omega
    refine ⟨hln, ?_⟩
    intro hpos
    rcases l with _ | ⟨lk, llv, ll, lr⟩
    · exact absurd rfl hln
    · rw [bfactor_node] at hpos
      have hlr : lr ≠ .nil := by
        intro hlr
        rw [hlr, node_level_nil] at hpos
        omega
      refine ⟨?_, ?_⟩
      · intro lk' llv' ll' lr' heq
        injection heq with _ _ _ h4
        rw [← h4]
        exact hlr
      · rcases lr with _ | ⟨a, alv, al, ar⟩
        · exact absurd rfl hlr
        · intro hrot
          rw [show rotate_left (.node lk llv ll (.node a alv al ar)) =
            fix_height (.node a alv (fix_height (.node lk llv ll al)) ar) from rfl] at hrot
          exact Tree.noConfusion hrot

theorem c10_balance_branch_null_safe_witness :
    Tree.node 2 2 Tree.nil (Tree.node 3 1 Tree.nil Tree.nil) ≠ (Tree.nil : Tree ℕ) :=
  ((c10_balance_branch_null_safe (k := (1 : ℕ)) 1
      (l := Tree.nil)
      (r := Tree.node 2 2 Tree.nil (Tree.node 3 1 Tree.nil Tree.nil))
      trivial (by decide)).1 (by decide)).1

/-- Minimum node count of an AVL-valid tree of a given height: the classical
Fibonacci lower bound `fib (h + 2) ≤ n + 1`. -/
theorem avl_fib : ∀ {t : Tree α}, avl t → Nat.fib (height t + 2) ≤ (keys t).length + 1
  | .nil, _ => by simp [height, keys]
  | .node k lv l r, ha => by
    rw [avl] at ha
    obtain ⟨hlv, h1, h2, al, ar⟩ := ha
    have ihl := avl_fib al
    have ihr := avl_fib ar
    have hlen : (keys (.node k lv l r : Tree α)).length =
        (keys l).length + 1 + (keys r).length := by
      simp [keys]
      omega
    rw [height_node, hlen]
    rcases le_total (height l) (height r) with hle | hle
    · rw [Nat.max_eq_right hle]
      have hstep : Nat.fib (height r + 1 + 2) =
          Nat.fib (height r + 1) + Nat.fib (height r + 2) := Nat.fib_add_two
      have hmono : Nat.fib (height r + 1) ≤ Nat.fib (height l + 2) :=
        Nat.fib_mono (by omega)
      omega
    · rw [Nat.max_eq_left hle]
      have hstep : Nat.fib (height l + 1 + 2) =
          Nat.fib (height l + 1) + Nat.fib (height l + 2) := Nat.fib_add_two
      have hmono : Nat.fib (height l + 1) ≤ Nat.fib (height r + 2) :=
        Nat.fib_mono (by omega)
      omega

/-- The golden ratio, base of the Fibonacci growth estimates. -/
noncomputable def goldr : ℝ := (1 + Real.sqrt 5) / 2

theorem one_le_goldr : 1 ≤ goldr := by
  unfold goldr
  nlinarith [Real.sq_sqrt (show (0:ℝ) ≤ 5 by norm_num), Real.sqrt_nonneg 5]

theorem goldr_sq : goldr ^ 2 = goldr + 1 := by
  unfold goldr
  have h : Real.sqrt 5 ^ 2 = 5 := Real.sq_sqrt (by norm_num)
  ring_nf
  nlinarith [h]

theorem fib_le_goldr_pow : ∀ n : ℕ, (Nat.fib (n + 1) : ℝ) ≤ goldr ^ n
  | 0 => by
    rw [show Nat.fib 1 = 1 from rfl, pow_zero]
    norm_num
  | 1 => by
    rw [show Nat.fib 2 = 1 from rfl, pow_one]
    simpa using one_le_goldr
  | n + 2 => by
    have ih1 := fib_le_goldr_pow (n + 1)
    have ih2 := fib_le_goldr_pow n
    have hfib : Nat.fib (n + 2 + 1) = Nat.fib (n + 1) + Nat.fib (n + 1 + 1) :=
      Nat.fib_add_two
    have hpow : goldr ^ (n + 2) = goldr ^ (n + 1) + goldr ^ n := by
      have : goldr ^ (n + 2) = goldr ^ n * goldr ^ 2 := by ring
      rw [this, goldr_sq]
      ring
    rw [hfib, hpow]
    push_cast
    linarith

theorem goldr_pow_le_fib : ∀ n : ℕ, goldr ^ n ≤ (Nat.fib (n + 2) : ℝ)
  | 0 => by
    rw [show Nat.fib 2 = 1 from rfl, pow_zero]
    norm_num
  | 1 => by
    rw [show Nat.fib 3 = 2 from rfl, pow_one]
    unfold goldr
    nlinarith [Real.sq_sqrt (show (0:ℝ) ≤ 5 by norm_num), Real.sqrt_nonneg 5]
  | n + 2 => by
    have ih1 := goldr_pow_le_fib (n + 1)
    have ih2 := goldr_pow_le_fib n
    have hfib : Nat.fib (n + 2 + 2) = Nat.fib (n + 2) + Nat.fib (n + 2 + 1) :=
      Nat.fib_add_two
    have hpow : goldr ^ (n + 2) = goldr ^ (n + 1) + goldr ^ n := by
      have : goldr ^ (n + 2) = goldr ^ n * goldr ^ 2 := by ring
      rw [this, goldr_sq]
      ring
    rw [hfib, hpow]
    push_cast
    linarith

/-- For every height that a tree of fewer than `2^64` keys can have,
`2^(25(h-1)) ≤ fib(36h+1)`; with `fib (k+1) ≤ goldr^k` this encodes
`2^((h-1)/1.44) ≤ goldr^h`, the numeric core of the `1.44 log2` bound. -/
theorem pow_fib_fact : ∀ h : Fin 91, 2 ^ (25 * h.val) ≤ Nat.fib (36 * h.val + 37) := by
  decide

theorem fib_94 : 2 ^ 64 < Nat.fib 94 := by
  decide

/-- C7: for every reachable tree holding `n` keys — `n` bounded by the
`2^64` addressable-node limit of the machine the program runs on — the stored
height of the root is at most `⌈1.44 * log2 (n + 2)⌉`. -/
theorem c7_root_height_bound {t : Tree α} (h : reachable t)
    (hn : (keys t).length < 2 ^ 64) :
    (node_level t : ℤ) ≤ ⌈(1.44 : ℝ) * Real.logb 2 ((keys t).length + 2)⌉ := by
  obtain ⟨hb, ha⟩ := reachable_valid h
  have hfib : Nat.fib (height t + 2) ≤ (keys t).length + 1 := avl_fib ha
  have hlev : node_level t = height t := avl_level ha
  have hh : height t ≤ 91 := by
    by_contra hcon
    push_neg at hcon
    have hm : Nat.fib 94 ≤ Nat.fib (height t + 2) := Nat.fib_mono (by omega)
    have hf : 2 ^ 64 < Nat.fib 94 := by decide
    omega
  rw [hlev]
  have hceil : ∀ z : ℤ, ((z : ℝ) - 1 < (1.44 : ℝ) * Real.logb 2 ((keys t).length + 2)) →
      z ≤ ⌈(1.44 : ℝ) * Real.logb 2 ((keys t).length + 2)⌉ := by
    intro z hlt
    have h1 : z - 1 < ⌈(1.44 : ℝ) * Real.logb 2 ((keys t).length + 2)⌉ :=
      Int.lt_ceil.mpr (by push_cast; linarith)
    omega
  apply hceil
  have hlogpos : (0:ℝ) ≤ Real.logb 2 ((keys t).length + 2) :=
    Real.logb_nonneg (by norm_num) (by
      have : (0:ℝ) ≤ ((keys t).length : ℝ) := Nat.cast_nonneg _
      linarith)
  rcases Nat.eq_zero_or_pos (height t) with h0z | h0pos
  · rw [h0z]
    have : (0:ℝ) ≤ (1.44 : ℝ) * Real.logb 2 ((keys t).length + 2) :=
      mul_nonneg (by norm_num) hlogpos
    push_cast
    linarith
  · have hgold1 : goldr ^ height t ≤ (Nat.fib (height t + 2) : ℝ) :=
      goldr_pow_le_fib (height t)
    have hgold2 : (Nat.fib (height t + 2) : ℝ) ≤ ((keys t).length : ℝ) + 1 := by
      exact_mod_cast hfib
    have hgn : goldr ^ height t < ((keys t).length : ℝ) + 2 := by linarith
    have hnat : 2 ^ (25 * (height t - 1)) ≤ Nat.fib (36 * (height t - 1) + 37) :=
      pow_fib_fact ⟨height t - 1, by omega⟩
    rw [show 36 * (height t - 1) + 37 = 36 * height t + 1 from by omega] at hnat
    have hb1 : (2:ℝ) ^ (25 * (height t - 1)) ≤ (Nat.fib (36 * height t + 1) : ℝ) := by
      exact_mod_cast hnat
    have hb2 : (Nat.fib (36 * height t + 1) : ℝ) ≤ goldr ^ (36 * height t) :=
      fib_le_goldr_pow (36 * height t)
    have hgpos : (0:ℝ) < goldr := lt_of_lt_of_le one_pos one_le_goldr
    have h2pos : (0:ℝ) < (2:ℝ) ^ (25 * (height t - 1)) := by positivity
    have hlog1 : ((25 * (height t - 1) : ℕ) : ℝ) ≤
        Real.logb 2 (goldr ^ (36 * height t)) := by
      have hmono : Real.logb 2 ((2:ℝ) ^ (25 * (height t - 1))) ≤
          Real.logb 2 (goldr ^ (36 * height t)) :=
        Real.logb_le_logb_of_le (by norm_num) h2pos (le_trans hb1 hb2)
      rw [Real.logb_pow, Real.logb_self_eq_one (by norm_num)] at hmono
      linarith [hmono]
    have hsplit : Real.logb 2 (goldr ^ (36 * height t)) =
        36 * Real.logb 2 (goldr ^ height t) := by
      rw [show goldr ^ (36 * height t) = (goldr ^ height t) ^ 36 from by
        rw [← pow_mul]
        ring_nf]
      rw [Real.logb_pow]
      norm_num
    have hlog2 : Real.logb 2 (goldr ^ height t) <
        Real.logb 2 (((keys t).length : ℝ) + 2) :=
      Real.logb_lt_logb (by norm_num) (pow_pos hgpos _) hgn
    rw [hsplit] at hlog1
    have hcast : ((25 * (height t - 1) : ℕ) : ℝ) = 25 * ((height t : ℝ) - 1) := by
      push_cast [Nat.cast_sub h0pos]
      ring
    rw [hcast] at hlog1
    have hfinal : 25 * ((height t : ℝ) - 1) <
        36 * Real.logb 2 (((keys t).length : ℝ) + 2) := by linarith
    have h144 : (1.44 : ℝ) = 36 / 25 := by norm_num
    push_cast
    rw [h144]
    linarith

theorem c7_root_height_bound_witness :
    (node_level (runOps [Op.ins 1, Op.ins 2, Op.ins 3, Op.ins 4] : Tree ℕ) : ℤ) ≤
      ⌈(1.44 : ℝ) * Real.logb 2
        ((keys (runOps [Op.ins 1, Op.ins 2, Op.ins 3, Op.ins 4] : Tree ℕ)).length + 2)⌉ :=
  c7_root_height_bound ⟨[Op.ins 1, Op.ins 2, Op.ins 3, Op.ins 4], rfl⟩ (by decide)

/-- One `bfactor` evaluation is "exact" on `t` when `t` is non-null, the
`size_t` subtraction followed by the `int` cast (`bfactor_impl`) returns
exactly the mathematical difference of the stored levels, that difference
equals the true height difference `height(right) - height(left)`, and its
magnitude is at most 2. -/
def bfactorEvalOk (t : Tree α) : Prop :=
  t ≠ .nil ∧ bfactor_impl t = bfactor t ∧ (bfactor t).natAbs ≤ 2 ∧
    ∀ k lv l r, t = .node k lv l r → bfactor t = (height r : Int) - (height l : Int)

/-- All `bfactor` evaluations performed by one `balance` call on `t`:
`bfactor(node)` after `fix_height`, plus `bfactor(node->right)` in the `2`
branch and `bfactor(node->left)` in the `-2` branch. -/
def balanceEvalsOk (t : Tree α) : Prop :=
  bfactorEvalOk (fix_height t) ∧
  (bfactor (fix_height t) = 2 → ∀ k lv l r, t = .node k lv l r → bfactorEvalOk r) ∧
  (bfactor (fix_height t) = -2 → ∀ k lv l r, t = .node k lv l r → bfactorEvalOk l)

/-- All `balance` invocations (with their exact intermediate arguments)
performed by `insert t v`, innermost first. -/
def insertBalOk : Tree α → α → Prop
  | .nil, _ => True
  | .node k lv l r, v =>
    if v = k then balanceEvalsOk (.node k lv l r)
    else if v < k then insertBalOk l v ∧ balanceEvalsOk (.node k lv (insert l v).1 r)
    else insertBalOk r v ∧ balanceEvalsOk (.node k lv l (insert r v).1)

/-- All `balance` invocations performed by `remove_min`. -/
def removeMinBalOk : Tree α → Prop
  | .nil => True
  | .node _ _ .nil _ => True
  | .node k lv (.node lk llv ll lr) r =>
      removeMinBalOk (.node lk llv ll lr) ∧
      balanceEvalsOk (.node k lv (remove_min (.node lk llv ll lr)) r)

/-- All `balance` invocations performed by `remove t v`, including those of
the `remove_min` pass and the one at the splice point. -/
def removeBalOk : Tree α → α → Prop
  | .nil, _ => True
  | .node k lv l r, v =>
    if v < k then removeBalOk l v ∧ balanceEvalsOk (.node k lv (remove l v).1 r)
    else if v > k then removeBalOk r v ∧ balanceEvalsOk (.node k lv l (remove r v).1)
    else match r with
      | .nil => True
      | .node rk rlv rl rr =>
        removeMinBalOk (.node rk rlv rl rr) ∧
        (match find_min (.node rk rlv rl rr) with
         | .node mk mlv _ _ =>
             balanceEvalsOk (.node mk mlv l (remove_min (.node rk rlv rl rr)))
         | .nil => True)

/-- The `size_t` subtraction plus `int` cast computes the exact signed
difference whenever both operands are below `2^31`. -/
theorem toInt32_usub64_eq {a b : Nat} (ha : a < 2 ^ 31) (hb : b < 2 ^ 31) :
    toInt32 (usub64 b a) = (b : Int) - (a : Int) := by
  unfold toInt32 usub64
  split_ifs with h
  · omega
  · omega

theorem bfactorEvalOk_node {k : α} {lv : Nat} {l r : Tree α}
    (hl : avl l) (hr : avl r) (hbl : height l < 2 ^ 31) (hbr : height r < 2 ^ 31)
    (h1 : height l ≤ height r + 2) (h2 : height r ≤ height l + 2) :
    bfactorEvalOk (.node k lv l r) := by
  refine ⟨fun h => Tree.noConfusion h, ?_, ?_, ?_⟩
  · rw [show bfactor_impl (.node k lv l r) =
      toInt32 (usub64 (node_level r) (node_level l)) from rfl, bfactor_node]
    rw [avl_level hl, avl_level hr]
    exact toInt32_usub64_eq (by omega) (by omega)
  · rw [bfactor_node, avl_level hl, avl_level hr]
    omega
  · intro k' lv' l' r' heq
    injection heq with e1 e2 e3 e4
    subst e3
    subst e4
    rw [bfactor_node, avl_level hl, avl_level hr]

theorem balanceEvalsOk_node {k : α} {lv : Nat} {l r : Tree α}
    (hl : avl l) (hr : avl r) (hbl : height l < 2 ^ 31) (hbr : height r < 2 ^ 31)
    (h1 : height l ≤ height r + 2) (h2 : height r ≤ height l + 2) :
    balanceEvalsOk (.node k lv l r) := by
  have hfx : fix_height (.node k lv l r) =
      .node k (max (node_level l) (node_level r) + 1) l r := rfl
  refine ⟨?_, ?_, ?_⟩
  · rw [hfx]
    exact bfactorEvalOk_node hl hr hbl hbr h1 h2
  · intro hbf k' lv' l' r' heq
    injection heq with e1 e2 e3 e4
    subst e3
    subst e4
    rw [hfx, bfactor_node, avl_level hl, avl_level hr] at hbf
    have hrn : height r = height l + 2 := by omega
    rcases r with _ | ⟨rk, rlv, rl, rr⟩
    · rw [height_nil] at hrn
      omega
    · have hr' := hr
      rw [avl] at hr'
      obtain ⟨hrlv, hc1, hc2, hrl, hrr⟩ := hr'
      rw [height_node] at hbr
      exact bfactorEvalOk_node hrl hrr (by omega) (by omega) (by omega) (by omega)
  · intro hbf k' lv' l' r' heq
    injection heq with e1 e2 e3 e4
    subst e3
    subst e4
    rw [hfx, bfactor_node, avl_level hl, avl_level hr] at hbf
    have hln : height l = height r + 2 := by omega
    rcases l with _ | ⟨lk, llv, ll, lr⟩
    · rw [height_nil] at hln
      omega
    · have hl' := hl
      rw [avl] at hl'
      obtain ⟨hllv, hc1, hc2, hll, hlr⟩ := hl'
      rw [height_node] at hbl
      exact bfactorEvalOk_node hll hlr (by omega) (by omega) (by omega) (by omega)

theorem insertBalOk_node {k v : α} {lv : Nat} {l r : Tree α} :
    insertBalOk (.node k lv l r) v =
      (if v = k then balanceEvalsOk (.node k lv l r)
       else if v < k then insertBalOk l v ∧ balanceEvalsOk (.node k lv (insert l v).1 r)
       else insertBalOk r v ∧ balanceEvalsOk (.node k lv l (insert r v).1)) := rfl

theorem removeBalOk_node {k v : α} {lv : Nat} {l r : Tree α} :
    removeBalOk (.node k lv l r) v =
      (if v < k then removeBalOk l v ∧ balanceEvalsOk (.node k lv (remove l v).1 r)
       else if v > k then removeBalOk r v ∧ balanceEvalsOk (.node k lv l (remove r v).1)
       else match r with
         | .nil => True
         | .node rk rlv rl rr =>
           removeMinBalOk (.node rk rlv rl rr) ∧
           (match find_min (.node rk rlv rl rr) with
            | .node mk mlv _ _ =>
                balanceEvalsOk (.node mk mlv l (remove_min (.node rk rlv rl rr)))
            | .nil => True)) := rfl

theorem insertBalOk_of : ∀ {t : Tree α} {v : α}, bst t → avl t →
    height t < 2 ^ 31 → insertBalOk t v
  | .nil, v, _, _, _ => trivial
  | .node k lv l r, v, hb, ha, hh => by
    rw [bst] at hb
    rw [avl] at ha
    obtain ⟨hbl, hbr, bl, br⟩ := hb
    obtain ⟨hlv, h1, h2, al, ar⟩ := ha
    rw [height_node] at hh
    rw [insertBalOk_node]
    by_cases hvk : v = k
    · rw [if_pos hvk]
      exact balanceEvalsOk_node al ar (by omega) (by omega) (by omega) (by omega)
    · rw [if_neg hvk]
      by_cases hlt : v < k
      · rw [if_pos hlt]
        refine ⟨insertBalOk_of bl al (by omega), ?_⟩
        by_cases hm : v ∈ keys l
        · rw [insert_dup bl al hm]
          dsimp only
          exact balanceEvalsOk_node al ar (by omega) (by omega) (by omega) (by omega)
        · obtain ⟨-, -, pavl, -, ph1, ph2⟩ := insert_fresh bl al hm
          exact balanceEvalsOk_node pavl ar (by omega) (by omega) (by omega) (by omega)
      · rw [if_neg hlt]
        refine ⟨insertBalOk_of br ar (by omega), ?_⟩
        by_cases hm : v ∈ keys r
        · rw [insert_dup br ar hm]
          dsimp only
          exact balanceEvalsOk_node al ar (by omega) (by omega) (by omega) (by omega)
        · obtain ⟨-, -, pavl, -, ph1, ph2⟩ := insert_fresh br ar hm
          exact balanceEvalsOk_node al pavl (by omega) (by omega) (by omega) (by omega)

theorem removeMinBalOk_of : ∀ {t : Tree α}, avl t → height t < 2 ^ 31 →
    removeMinBalOk t
  | .nil, _, _ => trivial
  | .node k lv .nil r, _, _ => trivial
  | .node k lv (.node lk llv ll lr) r, ha, hh => by
    rw [avl] at ha
    obtain ⟨hlv, h1, h2, al, ar⟩ := ha
    rw [height_node] at hh
    obtain ⟨qavl, qh1, qh2⟩ := remove_min_avl al
    refine ⟨removeMinBalOk_of al (by omega), ?_⟩
    exact balanceEvalsOk_node qavl ar (by omega) (by omega) (by omega) (by omega)

theorem removeBalOk_of : ∀ {t : Tree α} {v : α}, bst t → avl t →
    height t < 2 ^ 31 → removeBalOk t v
  | .nil, v, _, _, _ => trivial
  | .node k lv l r, v, hb, ha, hh => by
    rw [bst] at hb
    rw [avl] at ha
    obtain ⟨hbl, hbr, bl, br⟩ := hb
    obtain ⟨hlv, h1, h2, al, ar⟩ := ha
    rw [height_node] at hh
    rw [removeBalOk_node]
    rcases lt_trichotomy v k with hlt | heq | hgt
    · rw [if_pos hlt]
      refine ⟨removeBalOk_of bl al (by omega), ?_⟩
      by_cases hm : v ∈ keys l
      · obtain ⟨-, -, pavl, -, ph1, ph2⟩ := remove_found bl al hm
        exact balanceEvalsOk_node pavl ar (by omega) (by omega) (by omega) (by omega)
      · rw [remove_absent bl al hm]
        dsimp only
        exact balanceEvalsOk_node al ar (by omega) (by omega) (by omega) (by omega)
    · rw [if_neg (heq ▸ lt_irrefl v), if_neg (heq ▸ lt_irrefl v)]
      rcases r with _ | ⟨rk, rlv, rl, rr⟩
      · exact trivial
      · obtain ⟨mk, mlv, mr, rest, hfm, hkr⟩ :=
          find_min_eq (k := rk) (u := rlv) (l := rl) (r := rr)
        obtain ⟨qavl, qh1, qh2⟩ := remove_min_avl ar
        refine ⟨removeMinBalOk_of ar (by omega), ?_⟩
        rw [hfm]
        exact balanceEvalsOk_node al qavl (by omega) (by omega) (by omega) (by omega)
    · rw [if_neg (lt_asymm hgt), if_pos hgt]
      refine ⟨removeBalOk_of br ar (by omega), ?_⟩
      by_cases hm : v ∈ keys r
      · obtain ⟨-, -, pavl, -, ph1, ph2⟩ := remove_found br ar hm
        exact balanceEvalsOk_node al pavl (by omega) (by omega) (by omega) (by omega)
      · rw [remove_absent br ar hm]
        dsimp only
        exact balanceEvalsOk_node al ar (by omega) (by omega) (by omega) (by omega)

/-- C9: for every reachable tree (within the machine's `2^64` node limit) and
every key, each balance-factor evaluation that `insert` or `remove` performs —
on the fixed node and, in the 2 / -2 branches, on its right / left child,
including evaluations on the intermediate states passed to `balance` — is on
a non-null node, has true height difference of magnitude at most 2, and the
implementation's unsigned `size_t` subtraction followed by the cast to `int`
yields exactly the signed difference. -/
theorem c9_bfactor_evals_exact {t : Tree α} (h : reachable t)
    (hn : (keys t).length < 2 ^ 64) (v : α) :
    insertBalOk t v ∧ removeBalOk t v := by
  obtain ⟨hb, ha⟩ := reachable_valid h
  have hfib := avl_fib ha
  have hh : height t ≤ 91 := by
    by_contra hcon
    push_neg at hcon
    have hm : Nat.fib 94 ≤ Nat.fib (height t + 2) := Nat.fib_mono (by omega)
    have hf : 2 ^ 64 < Nat.fib 94 := by decide
    omega
  exact ⟨insertBalOk_of hb ha (by omega), removeBalOk_of hb ha (by omega)⟩

theorem c9_bfactor_evals_exact_witness :
    insertBalOk (runOps [Op.ins 2, Op.ins 1, Op.ins 3, Op.ins 4] : Tree ℕ) 4 ∧
      removeBalOk (runOps [Op.ins 2, Op.ins 1, Op.ins 3, Op.ins 4] : Tree ℕ) 4 :=
  c9_bfactor_evals_exact ⟨[Op.ins 2, Op.ins 1, Op.ins 3, Op.ins 4], rfl⟩ (by decide) 4

/-- Whitespace as skipped by `std::cin` formatted extraction in the default
locale. -/
def isWs (c : Char) : Bool :=
  c == ' ' || c == '\t' || c == '\n' || c == '\x0b' || c == '\x0c' || c == '\r'

/-- `std::cin >> command` for a `char`: skip whitespace, then extract one
character; fails only when the stream is exhausted. -/
def readChar (s : List Char) : Option (Char × List Char) :=
  match s.dropWhile isWs with
  | [] => none
  | c :: rest => some (c, rest)

/-- `std::cin >> value` for a `std::string`: skip whitespace, then extract the
maximal non-whitespace run; fails when the stream is exhausted. -/
def readTok (s : List Char) : Option (List Char × List Char) :=
  match s.dropWhile isWs with
  | [] => none
  | c :: rest =>
    some ((c :: rest).takeWhile (fun a => !(isWs a)),
      (c :: rest).dropWhile (fun a => !(isWs a)))

/-- One iteration of the `switch`: `?` searches, `+` inserts, `-` removes
(each printing one `OK`/`FAIL` line), any other command character does
nothing. -/
def cmdStep (t : Tree String) (c : Char) (v : String) : Tree String × List String :=
  if c = '?' then (t, [if (search t v).isSome then "OK" else "FAIL"])
  else if c = '+' then
    ((insert t v).1, [if (insert t v).2 then "OK" else "FAIL"])
  else if c = '-' then
    ((remove t v).1, [if (remove t v).2 then "OK" else "FAIL"])
  else (t, [])

theorem readChar_lt {s : List Char} {c : Char} {rest : List Char}
    (h : readChar s = some (c, rest)) : rest.length < s.length := by
  unfold readChar at h
  cases hd : s.dropWhile isWs with
  | nil =>
    rw [hd] at h
    exact absurd h (by simp)
  | cons a as =>
    rw [hd] at h
    have hlen : (a :: as).length ≤ s.length := by
      rw [← hd]
      exact (List.dropWhile_suffix isWs).length_le
    injection h with h'
    injection h' with h1 h2
    rw [← h2]
    simp only [List.length_cons] at hlen
    omega

theorem readTok_le {s : List Char} {v rest : List Char}
    (h : readTok s = some (v, rest)) : rest.length ≤ s.length := by
  unfold readTok at h
  cases hd : s.dropWhile isWs with
  | nil =>
    rw [hd] at h
    exact absurd h (by simp)
  | cons a as =>
    rw [hd] at h
    have hlen : (a :: as).length ≤ s.length := by
      rw [← hd]
      exact (List.dropWhile_suffix isWs).length_le
    injection h with h'
    injection h' with h1 h2
    have hlen2 : ((a :: as).dropWhile (fun a => !(isWs a))).length ≤ (a :: as).length :=
      (List.dropWhile_suffix _).length_le
    rw [← h2]
    omega

/-- The `while (true)` loop of `main`: read a command character and a key
token; on stream failure break (producing nothing further); otherwise
dispatch and continue with the updated tree. -/
def mainLoop (t : Tree String) (input : List Char) : List String :=
  match hc : readChar input with
  | none => []
  | some (c, rest) =>
    match ht : readTok rest with
    | none => []
    | some (v, rest') =>
      (cmdStep t c (String.mk v)).2 ++ mainLoop (cmdStep t c (String.mk v)).1 rest'
termination_by input.length
decreasing_by exact lt_of_le_of_lt (readTok_le ht) (readChar_lt hc)

/-- The whole process: run the loop on the standard input with an empty tree;
the printed lines and the exit status (`return 0`). -/
def mainProgram (input : List Char) : List String × Nat :=
  (mainLoop .nil input, 0)

/-- Maximal prefix of the input parseable as (command character, key token)
pairs, together with the unconsumed leftover at which parsing first fails. -/
def parseCmds (input : List Char) : List (Char × String) × List Char :=
  match hc : readChar input with
  | none => ([], input)
  | some (c, rest) =>
    match ht : readTok rest with
    | none => ([], input)
    | some (v, rest') =>
      ((c, String.mk v) :: (parseCmds rest').1, (parseCmds rest').2)
termination_by input.length
decreasing_by
  all_goals exact lt_of_le_of_lt (readTok_le ht) (readChar_lt hc)

/-- Outputs produced by dispatching a list of parsed commands. -/
def runCmds (t : Tree String) : List (Char × String) → List String
  | [] => []
  | (c, v) :: cs => (cmdStep t c v).2 ++ runCmds (cmdStep t c v).1 cs

/-- The loop's output equals the dispatch of the maximal parseable command
prefix: nothing is printed past the first parse failure. -/
theorem mainLoop_eq_runCmds : ∀ (input : List Char) (t : Tree String),
    mainLoop t input = runCmds t (parseCmds input).1
  | input, t => by
    rw [mainLoop, parseCmds]
    split
    · simp [runCmds]
    · rename_i c rest hc
      split
      · simp [runCmds]
      · rename_i v rest' ht
        dsimp only
        simp only [runCmds]
        rw [mainLoop_eq_runCmds rest' (cmdStep t c (String.mk v)).1]
termination_by input => input.length
decreasing_by exact lt_of_le_of_lt (readTok_le (by assumption)) (readChar_lt (by assumption))

/-- The leftover at which parsing stops is unparseable: either the stream is
exhausted (no command character) or a command character has no key token
after it. -/
theorem parseCmds_leftover : ∀ input : List Char,
    readChar (parseCmds input).2 = none ∨
      ∃ c rest, readChar (parseCmds input).2 = some (c, rest) ∧ readTok rest = none
  | input => by
    rw [parseCmds]
    split
    · rename_i hc
      exact Or.inl hc
    · rename_i c rest hc
      split
      · rename_i ht
        exact Or.inr ⟨c, rest, hc, ht⟩
      · rename_i v rest' ht
        dsimp only
        exact parseCmds_leftover rest'
termination_by input => input.length
decreasing_by exact lt_of_le_of_lt (readTok_le (by assumption)) (readChar_lt (by assumption))

/-- C8: for every input stream, the command loop's output is exactly the
dispatch of the maximal prefix parseable as (command character, key token)
pairs — so the loop stops at the first parse failure and prints nothing after
it; the point where it stops is either end-of-stream or a command character
with no following key token; and the process exit status is always 0. -/
theorem c8_command_loop (input : List Char) :
    mainProgram input = (runCmds .nil (parseCmds input).1, 0) ∧
      (readChar (parseCmds input).2 = none ∨
        ∃ c rest, readChar (parseCmds input).2 = some (c, rest) ∧ readTok rest = none) := by
  constructor
  · show (mainLoop .nil input, 0) = _
    rw [mainLoop_eq_runCmds]
  · exact parseCmds_leftover input

end AVLBinaryTree
